import Mathlib

/-!
Verification development for the delay-selection engine of
neurokit2/complexity/optim_complexity_delay.py.

Numbers are modelled as rationals.  Functions of the repository that live
outside the given sources (the embedding provider, the autocorrelation
estimator, the zero-crossing primitive) are modelled from the spec and are
marked as such in their doc comments.  External numeric collaborators whose
exact values are irrational or heuristic (the mutual-information estimator,
the euclidean distance, np.std, the constant 1/e, the peak finder
signal_findpeaks, and the arctan-degrees/closest-value/np.where composite of
the 40-percent-slope branch) are carried as parameters in the Ext record:
every theorem below holds for an arbitrary interpretation of those.
-/

namespace NK

/-- Python str.lower, modelled over the character list (kernel friendly). -/
def toLowerStr (s : String) : String := String.mk (s.data.map Char.toLower)

/-- np.sign of a rational. -/
def signQ (q : ℚ) : ℤ := if q < 0 then -1 else if q = 0 then 0 else 1

/-- np.diff: successive finite differences. -/
def npDiff (l : List ℚ) : List ℚ := List.zipWith (fun a b => b - a) l l.tail

/-- Modelled from the spec: complexity_embedding, the external Embedding
Provider (imported by the Orchestrator but not among the given sources).
Data model, section 3: an ordered sequence of length
len(signal) - (dimension-1)*delay (empty when that would be nonpositive)
whose point i is [signal[i], signal[i+delay], ..., signal[i+(dimension-1)*delay]]. -/
def complexity_embedding (signal : List ℚ) (delay dimension : ℕ) : List (List ℚ) :=
  (List.range (signal.length - (dimension - 1) * delay)).map fun i =>
    (List.range dimension).map fun j => signal.getD (i + j * delay) 0

/-- Modelled from the spec: signal_autocor, the external autocorrelation
estimator (section 4.1: computes the full autocorrelation function of the
signal, one value per lag 0..n-1, then the caller truncates).  Value at lag
k is sum_i signal[i]*signal[i+k], normalized by the lag-0 value. -/
def signal_autocor (signal : List ℚ) : List ℚ :=
  ((List.range signal.length).map fun k =>
      (List.zipWith (fun a b => a * b) signal (signal.drop k)).sum).map
    fun x => x / ((List.zipWith (fun a b => a * b) signal signal).sum)

/-- Modelled from the spec: signal_zerocrossings, the external zero-crossing
primitive (section 6: the indices where consecutive sign changes occur). -/
def signal_zerocrossings (v : List ℚ) : List ℕ :=
  (List.range (v.length - 1)).filter fun i => decide (signQ (v.getD i 0) ≠ signQ (v.getD (i + 1) 0))

/-- np.heaviside with an explicit value at 0. -/
def heaviside (x at0 : ℚ) : ℚ := if x < 0 then 0 else if x = 0 then at0 else 1

/-- np.linalg.norm(u - v, ord=np.inf): the Chebyshev (max-coordinate) distance. -/
def chebDist (u v : List ℚ) : ℚ := ((List.zipWith (fun a b => |a - b|) u v).foldl max 0)

/-- itertools.combinations(range n, 2): all index pairs i < j, in order. -/
def combinations2 (n : ℕ) : List (ℕ × ℕ) :=
  (List.range n).flatMap fun i => ((List.range n).filter fun j => decide (i < j)).map fun j => (i, j)

/-- Correlation integral of the C-C method (Kim et al. 1999): the average of
the Heaviside step at radius r over the sup-norm distances of all unique
pairwise embedded vectors. -/
def _embedding_delay_cc_integral (signal : List ℚ) (dimension delay : ℕ) (r : ℚ) : ℚ :=
  2 / (((complexity_embedding signal delay dimension).length : ℚ) *
        (((complexity_embedding signal delay dimension).length : ℚ) - 1)) *
    (((combinations2 (complexity_embedding signal delay dimension).length).map fun p =>
        heaviside
          (r - chebDist ((complexity_embedding signal delay dimension).getD p.1 [])
            ((complexity_embedding signal delay dimension).getD p.2 []))
          1).sum)

/-- Python list slice l[0::step] for step >= 1: every step-th element, so
element k is l[k*step] and there are ceil(len(l)/step) of them. -/
def sliceStep (l : List ℚ) (step : ℕ) : List ℚ :=
  (List.range ((l.length + step - 1) / step)).map fun k => l.getD (k * step) 0

/-- Dependence statistic of the C-C method: the signal is split into delay
disjoint sub-series signal[i-1::delay] for i in range(1, delay+1); for each,
the integral of the sub-series minus the dimension-th power of the
dimension-1 integral of the whole signal; summed and divided by delay. -/
def _embedding_delay_cc_statistic (signal : List ℚ) (dimension delay : ℕ) (r : ℚ) : ℚ :=
  (((List.range' 1 delay).map fun i => sliceStep (signal.drop (i - 1)) delay).foldl
      (fun statistic sub_series =>
        statistic +
          (_embedding_delay_cc_integral sub_series dimension delay r -
            _embedding_delay_cc_integral signal 1 delay r ^ dimension))
      0) / (delay : ℚ)

/-- Deviation of the C-C statistic across the radius set: np.max minus np.min
of the statistic evaluated at each radius.  (numpy raises on an empty array;
the empty case below is junk and is never relied upon.) -/
def _embedding_delay_cc_deviation (signal : List ℚ) (delay dimension : ℕ) (r_vals : List ℚ) : ℚ :=
  match r_vals.map fun r => _embedding_delay_cc_statistic signal dimension delay r with
  | [] => 0
  | d :: ds => ds.foldl max d - ds.foldl min d

/-- External numeric collaborators, kept abstract: the mutual-information
estimator, the euclidean distance, np.std, the float constant 1/np.exp(1),
signal_findpeaks (on the already-negated curve, returning the Peaks index
list), and the composite of the 40-percent-slope branch (arctan converted to
degrees, find_closest and np.where on the slope list, returning the index
list). -/
structure Ext where
  mi : List ℚ → List ℚ → ℚ
  euclid : List ℚ → List ℚ → ℚ
  std : List ℚ → ℚ
  invE : ℚ
  fp : List ℚ → List ℕ
  c40 : List ℚ → List ℕ

/-- Outcome of the Delay Selector: an index, the NaN sentinel, or an
uncaught Python exception (IndexError from np.diff(values)[0] on a short
input, NameError from an unrecognized algorithm leaving optimal unbound). -/
inductive SelectOut where
  | indexError
  | nameError
  | nan
  | idx (i : ℕ)
deriving DecidableEq

/-- Final block of _embedding_delay_select for a non-scalar optimal: an empty
collection becomes NaN, otherwise the first element is taken.  (The scalar
results 0 and len-1 of the corrected branch bypass this block, as in the
source isinstance check.) -/
def resolveOptimal : List ℕ → SelectOut
  | [] => SelectOut.nan
  | i :: _ => SelectOut.idx i

/-- The Delay Selector _embedding_delay_select.  fp, zc, c40 are the
peak-finding, zero-crossing and 40-percent-slope primitives; invE models the
float constant 1/np.exp(1). -/
def _embedding_delay_select (fp zc c40 : List ℚ → List ℕ) (invE : ℚ)
    (metric_values : List ℚ) (algorithm : String) : SelectOut :=
  if algorithm = ("first local minimum (corrected)") then
    match npDiff metric_values with
    | [] => SelectOut.indexError
    | d0 :: ds =>
      if 0 < d0 then SelectOut.idx 0
      else if (d0 :: ds).all fun d => decide (d < 0) then
        SelectOut.idx (metric_values.length - 1)
      else resolveOptimal (fp (metric_values.map fun x => -1 * x))
  else if algorithm = ("first local minimum") then
    resolveOptimal (fp (metric_values.map fun x => -1 * x))
  else if algorithm = ("first 1/e crossing") then
    resolveOptimal (zc (metric_values.map fun x => x - invE))
  else if algorithm = ("first zero crossing") then
    resolveOptimal (zc metric_values)
  else if algorithm = ("closest to 40% of the slope") then
    resolveOptimal (c40 ((npDiff metric_values).map fun d => d * (metric_values.length : ℚ)))
  else SelectOut.nameError

/-- Default radius multipliers of _embedding_delay_metric. -/
def rMultDefaults : List ℚ := [1 / 2, 1, 3 / 2, 2]

/-- The Metric Evaluator _embedding_delay_metric.  Negative candidate delays
are clamped by toNat inside the embedding-based branches (the sources never
reach those branches with a nonpositive delay without raising). -/
def _embedding_delay_metric (E : Ext) (signal : List ℚ) (tau_sequence : List ℤ)
    (metric : String) (dimensions : List ℕ) (r_vals : List ℚ) : List ℚ :=
  if metric = ("Autocorrelation") then
    (signal_autocor signal).take tau_sequence.length
  else if metric = ("Correlation Integral") then
    tau_sequence.map fun t =>
      ((dimensions.map fun m =>
          _embedding_delay_cc_deviation signal t.toNat m
            (r_vals.map fun i => i * E.std signal)).sum) / 4
  else
    tau_sequence.map fun t =>
      if metric = ("Mutual Information") then
        E.mi ((complexity_embedding signal t.toNat 2).map fun p => p.getD 0 0)
          ((complexity_embedding signal t.toNat 2).map fun p => p.getD 1 0)
      else if metric = ("Displacement") then
        (((complexity_embedding signal t.toNat 2).map fun p =>
            E.euclid p [p.getD 0 0, p.getD 0 0]).sum) /
          ((complexity_embedding signal t.toNat 2).length : ℚ)
      else 0

/-- Errors of the Orchestrator: the ValueError for an unrecognized method,
and uncaught IndexError / NameError propagating from below. -/
inductive NKErr where
  | valueError (msg : String)
  | indexError
  | nameError
deriving DecidableEq

/-- The info dictionary returned by complexity_delay on success. -/
structure InfoBundle where
  Values : List ℤ
  Scores : List ℚ
  Algorithm : String
  Metric : String
  Method : String
deriving DecidableEq

/-- What complexity_delay hands back when it does not raise: on the NaN path
the bare sentinel is returned with no info dictionary (source line
`return optimal`); on success the selected delay plus the info dictionary. -/
inductive DelayResult where
  | nanOnly
  | success (delay : ℤ) (info : InfoBundle)
deriving DecidableEq

/-- The **kwargs accepted by complexity_delay (dimension / radius overrides
for the C-C method). -/
structure KW where
  dimensions : Option (List ℕ)
  r_vals : Option (List ℚ)
deriving DecidableEq

deriving instance DecidableEq for Except

/-- Method-name dispatch of complexity_delay: metric and default algorithm. -/
def methodDispatch (m : String) : Option (String × String) :=
  if m ∈ [("fraser"), ("fraser1986"), ("tdmi")] then
    some (("Mutual Information"), ("first local minimum"))
  else if m ∈ [("theiler"), ("theiler1990")] then
    some (("Autocorrelation"), ("first 1/e crossing"))
  else if m ∈ [("casdagli"), ("casdagli1991")] then
    some (("Autocorrelation"), ("first zero crossing"))
  else if m ∈ [("rosenstein"), ("rosenstein1993"), ("adfd")] then
    some (("Displacement"), ("closest to 40% of the slope"))
  else if m ∈ [("kim1999"), ("cc")] then
    some (("Correlation Integral"), ("first local minimum"))
  else none

/-- Candidate delay sequence: np.arange(1, delay_max+1) for an integer
delay_max, np.array(delay_max) otherwise. -/
def tauSequence : ℕ ⊕ List ℤ → List ℤ
  | Sum.inl n => (List.range n).map fun i => (i : ℤ) + 1
  | Sum.inr l => l

/-- The Orchestrator complexity_delay.  The show/plotting path is out of
scope (it does not change the returned values).  kwargs is accepted but, as
in the source, never forwarded to _embedding_delay_metric. -/
def complexity_delay (E : Ext) (signal : List ℚ) (delay_max : ℕ ⊕ List ℤ)
    (method : String) (algorithm : Option String) (kwargs : KW) :
    Except NKErr (List String × DelayResult) :=
  match methodDispatch (toLowerStr method) with
  | none => Except.error (NKErr.valueError ("NeuroKit error: complexity_delay: method not recognized."))
  | some md =>
    match _embedding_delay_select E.fp signal_zerocrossings E.c40 E.invE
        (_embedding_delay_metric E signal (tauSequence delay_max) md.1 [2, 3, 4, 5] rMultDefaults)
        (algorithm.getD md.2) with
    | SelectOut.indexError => Except.error NKErr.indexError
    | SelectOut.nameError => Except.error NKErr.nameError
    | SelectOut.nan =>
      Except.ok
        ([("No optimal time delay is found. Nan is returned. Consider using a higher delay max.")],
          DelayResult.nanOnly)
    | SelectOut.idx i =>
      if i < (tauSequence delay_max).length then
        Except.ok ([], DelayResult.success ((tauSequence delay_max).getD i 0)
          ⟨tauSequence delay_max,
            _embedding_delay_metric E signal (tauSequence delay_max) md.1 [2, 3, 4, 5] rMultDefaults,
            algorithm.getD md.2, md.1, toLowerStr method⟩)
      else Except.error NKErr.indexError

/-- A concrete interpretation of the abstract externals (used to instantiate
universally quantified theorems on concrete inputs). -/
def E0 : Ext := ⟨fun _ _ => 0, fun _ _ => 0, fun _ => 0, 0, fun _ => [], fun _ => []⟩

/-- Concrete peak finder returning no peak. -/
def fp0 : List ℚ → List ℕ := fun _ => []

/-- Concrete zero-crossing primitive returning no crossing. -/
def zc0 : List ℚ → List ℕ := fun _ => []

/-- Concrete 40-percent-slope primitive returning no index. -/
def c400 : List ℚ → List ℕ := fun _ => []

/-- Concrete peak finder returning the index collection [3, 7]. -/
def fpK : List ℚ → List ℕ := fun _ => [3, 7]

/-- Whether an Orchestrator outcome is a normal return (no exception). -/
def exceptIsOk : Except NKErr (List String × DelayResult) → Bool
  | Except.ok _ => true
  | Except.error _ => false

/-! Helper lemmas. -/

lemma foldl_min_le (d : ℚ) (l : List ℚ) : l.foldl min d ≤ d := by
  induction l generalizing d with
  | nil => exact le_refl d
  | cons x xs ih => exact le_trans (ih (min d x)) (min_le_left d x)

lemma le_foldl_max (d : ℚ) (l : List ℚ) : d ≤ l.foldl max d := by
  induction l generalizing d with
  | nil => exact le_refl d
  | cons x xs ih => exact le_trans (le_max_left d x) (ih (max d x))

lemma foldl_max_all_eq (d : ℚ) (l : List ℚ) (h : ∀ x ∈ l, x = d) : l.foldl max d = d := by
  induction l with
  | nil => rfl
  | cons x xs ih =>
    show xs.foldl max (max d x) = d
    rw [h x (List.mem_cons_self x xs), max_self]
    exact ih fun y hy => h y (List.mem_cons_of_mem x hy)

lemma foldl_min_all_eq (d : ℚ) (l : List ℚ) (h : ∀ x ∈ l, x = d) : l.foldl min d = d := by
  induction l with
  | nil => rfl
  | cons x xs ih =>
    show xs.foldl min (min d x) = d
    rw [h x (List.mem_cons_self x xs), min_self]
    exact ih fun y hy => h y (List.mem_cons_of_mem x hy)

lemma foldl_add_sum {α : Type} (f : α → ℚ) (a : ℚ) (l : List α) :
    l.foldl (fun acc x => acc + f x) a = a + (l.map f).sum := by
  induction l generalizing a with
  | nil => simp
  | cons x xs ih => simp [ih, add_assoc]

lemma sum_map_ite_countP {α : Type} (P : α → Prop) [DecidablePred P] (l : List α) :
    (l.map fun x => if P x then (1 : ℚ) else 0).sum =
      ((l.countP fun x => decide (P x) : ℕ) : ℚ) := by
  induction l with
  | nil => simp
  | cons a t ih =>
    simp only [List.map_cons, List.sum_cons, List.countP_cons, ih]
    by_cases hP : P a
    · simp [hP, add_comm]
    · simp [hP]

lemma heaviside_step_le (x r : ℚ) : heaviside (r - x) 1 = if x ≤ r then (1 : ℚ) else 0 := by
  unfold heaviside
  rcases lt_trichotomy (r - x) 0 with h | h | h
  · rw [if_pos h, if_neg (by linarith)]
  · rw [if_neg (by linarith), if_pos h, if_pos (by linarith)]
  · rw [if_neg (by linarith), if_neg (by linarith), if_pos (by linarith)]

lemma npDiff_length (l : List ℚ) : (npDiff l).length = l.length - 1 := by
  unfold npDiff
  rw [List.length_zipWith, List.length_tail]
  omega

lemma length_signal_autocor (s : List ℚ) : (signal_autocor s).length = s.length := by
  unfold signal_autocor
  rw [List.length_map, List.length_map, List.length_range]

lemma mem_signal_zerocrossings_lt (v : List ℚ) (i : ℕ) (h : i ∈ signal_zerocrossings v) :
    i < v.length - 1 := by
  unfold signal_zerocrossings at h
  rw [List.mem_filter] at h
  exact List.mem_range.mp h.1

lemma metric_length (E : Ext) (sig : List ℚ) (taus : List ℤ) (metric : String)
    (dims : List ℕ) (rv : List ℚ) :
    (_embedding_delay_metric E sig taus metric dims rv).length =
      if metric = ("Autocorrelation") then min sig.length taus.length else taus.length := by
  unfold _embedding_delay_metric
  by_cases h1 : metric = ("Autocorrelation")
  · rw [if_pos h1, if_pos h1]
    rw [List.length_take, length_signal_autocor]
    omega
  · rw [if_neg h1, if_neg h1]
    by_cases h2 : metric = ("Correlation Integral")
    · rw [if_pos h2, List.length_map]
    · rw [if_neg h2, List.length_map]

lemma methodDispatch_autocor (m : String) (md : String × String)
    (h : methodDispatch m = some md) :
    md.1 = ("Autocorrelation") ↔
      m ∈ [("theiler"), ("theiler1990"), ("casdagli"), ("casdagli1991")] := by
  unfold methodDispatch at h
  split_ifs at h with h1 h2 h3 h4 h5
  · injection h with h'
    subst h'
    simp only [List.mem_cons, List.not_mem_nil, or_false] at h1
    rcases h1 with rfl | rfl | rfl <;> decide
  · injection h with h'
    subst h'
    simp only [List.mem_cons, List.not_mem_nil, or_false] at h2
    rcases h2 with rfl | rfl <;> decide
  · injection h with h'
    subst h'
    simp only [List.mem_cons, List.not_mem_nil, or_false] at h3
    rcases h3 with rfl | rfl <;> decide
  · injection h with h'
    subst h'
    simp only [List.mem_cons, List.not_mem_nil, or_false] at h4
    rcases h4 with rfl | rfl | rfl <;> decide
  · injection h with h'
    subst h'
    simp only [List.mem_cons, List.not_mem_nil, or_false] at h5
    rcases h5 with rfl | rfl <;> decide

lemma select_corrected_nil (fp zc c40 : List ℚ → List ℕ) (invE : ℚ) (mv : List ℚ)
    (h : npDiff mv = []) :
    _embedding_delay_select fp zc c40 invE mv ("first local minimum (corrected)") =
      SelectOut.indexError := by
  have e : _embedding_delay_select fp zc c40 invE mv ("first local minimum (corrected)") =
      (match npDiff mv with
        | [] => SelectOut.indexError
        | d0 :: ds =>
          if 0 < d0 then SelectOut.idx 0
          else if (d0 :: ds).all fun d => decide (d < 0) then SelectOut.idx (mv.length - 1)
          else resolveOptimal (fp (mv.map fun x => -1 * x))) := rfl
  rw [e, h]

lemma select_corrected_cons (fp zc c40 : List ℚ → List ℕ) (invE : ℚ) (mv : List ℚ)
    (d0 : ℚ) (ds : List ℚ) (h : npDiff mv = d0 :: ds) :
    _embedding_delay_select fp zc c40 invE mv ("first local minimum (corrected)") =
      (if 0 < d0 then SelectOut.idx 0
        else if (d0 :: ds).all fun d => decide (d < 0) then SelectOut.idx (mv.length - 1)
        else resolveOptimal (fp (mv.map fun x => -1 * x))) := by
  have e : _embedding_delay_select fp zc c40 invE mv ("first local minimum (corrected)") =
      (match npDiff mv with
        | [] => SelectOut.indexError
        | d0 :: ds =>
          if 0 < d0 then SelectOut.idx 0
          else if (d0 :: ds).all fun d => decide (d < 0) then SelectOut.idx (mv.length - 1)
          else resolveOptimal (fp (mv.map fun x => -1 * x))) := rfl
  rw [e, h]

lemma npDiff_cons_of_two_le (mv : List ℚ) (h : 2 ≤ mv.length) :
    ∃ d0 ds, npDiff mv = d0 :: ds := by
  have hl := npDiff_length mv
  cases hnp : npDiff mv with
  | nil => rw [hnp] at hl; simp at hl; omega
  | cons a t => exact ⟨a, t, rfl⟩

lemma lt_ceilDiv_iff (n step k : ℕ) (h : 1 ≤ step) : k < (n + step - 1) / step ↔ k * step < n := by
  rw [Nat.lt_iff_add_one_le, Nat.le_div_iff_mul_le h, Nat.succ_mul]
  omega

lemma sliceStep_getElem (l : List ℚ) (step k : ℕ) (h : 1 ≤ step) :
    (sliceStep l step)[k]? = l[k * step]? := by
  unfold sliceStep
  rw [List.getElem?_map]
  by_cases hk : k < (l.length + step - 1) / step
  · rw [List.getElem?_range hk]
    have hlt : k * step < l.length := (lt_ceilDiv_iff l.length step k h).mp hk
    rw [List.getElem?_eq_getElem hlt]
    simp [List.getD_eq_getElem?_getD, List.getElem?_eq_getElem hlt]
  · rw [List.getElem?_eq_none (by simpa using Nat.le_of_not_lt hk)]
    have hge : l.length ≤ k * step := by
      have := (lt_ceilDiv_iff l.length step k h)
      omega
    rw [List.getElem?_eq_none hge]
    rfl

lemma complexity_delay_success (E : Ext) (sig : List ℚ) (dm : ℕ ⊕ List ℤ) (method : String)
    (algorithm : Option String) (kw : KW) (w : List String) (d : ℤ) (info : InfoBundle)
    (h : complexity_delay E sig dm method algorithm kw =
      Except.ok (w, DelayResult.success d info)) :
    ∃ md, methodDispatch (toLowerStr method) = some md ∧
      info.Scores = _embedding_delay_metric E sig (tauSequence dm) md.1 [2, 3, 4, 5] rMultDefaults := by
  unfold complexity_delay at h
  split at h
  · exact absurd h (by simp)
  · rename_i md hd
    refine ⟨md, hd, ?_⟩
    split at h
    · exact absurd h (by simp)
    · exact absurd h (by simp)
    · simp at h
    · split at h
      · simp only [Except.ok.injEq, Prod.mk.injEq, DelayResult.success.injEq] at h
        rw [← h.2.2]
      · exact absurd h (by simp)

/-! Claim theorems. -/

/-- Claim C1.  On the not-found path the Orchestrator emits the non-fatal
warning and returns the bare NaN sentinel WITHOUT the diagnostics bundle
(source line 153, `return optimal`), contradicting the claim and the
function docstring that a (delay, parameters) pair is always returned.
Concrete run: constant signal, casdagli1991, no zero crossing. -/
theorem c1_nan_path_returns_bare_sentinel :
    complexity_delay E0 [1, 1, 1, 1] (Sum.inl 3) ("casdagli1991") none ⟨none, none⟩ =
      Except.ok
        ([("No optimal time delay is found. Nan is returned. Consider using a higher delay max.")],
          DelayResult.nanOnly) := by
  with_unfolding_all decide

/-- Claim C2.  The keyword overrides for the dimension and radius sets are
accepted by complexity_delay but never forwarded to the Metric Evaluator
(source line 143 calls _embedding_delay_metric without kwargs), so the
result, and in particular the score sequence, is identical for every choice
of overrides — no override can change the Correlation Integral scores. -/
theorem c2_kwargs_ignored (E : Ext) (signal : List ℚ) (delay_max : ℕ ⊕ List ℤ)
    (method : String) (algorithm : Option String) (kw kw' : KW) :
    complexity_delay E signal delay_max method algorithm kw =
      complexity_delay E signal delay_max method algorithm kw' := rfl

/-- Claim C3, counterexample.  A candidate-delay specification containing the
non-positive value 0 is not rejected: the Orchestrator runs the full sweep
and even returns the non-positive delay 0 as the optimum, with a complete
result package and no error of any kind. -/
theorem c3_counterexample :
    complexity_delay E0 [1, -1, 1, -1] (Sum.inr [0, 2]) ("casdagli1991") none ⟨none, none⟩ =
      Except.ok ([], DelayResult.success 0
        ⟨[0, 2], [1, -3/4], ("first zero crossing"), ("Autocorrelation"), ("casdagli1991")⟩) := by
  with_unfolding_all decide

/-- Claim C3, amended.  complexity_delay performs no validation of the
candidate delay specification: even when it contains non-positive values no
InvalidInput error is raised; for an autocorrelation-metric method the sweep
runs and the call returns normally. -/
theorem c3_no_boundary_validation (E : Ext) (sig : List ℚ) (taus : List ℤ) (kw : KW)
    (h : ∃ t ∈ taus, t ≤ 0) :
    exceptIsOk (complexity_delay E sig (Sum.inr taus) ("casdagli1991") none kw) = true := by
  clear h
  have e : complexity_delay E sig (Sum.inr taus) ("casdagli1991") none kw =
      (match resolveOptimal (signal_zerocrossings ((signal_autocor sig).take taus.length)) with
        | SelectOut.indexError => Except.error NKErr.indexError
        | SelectOut.nameError => Except.error NKErr.nameError
        | SelectOut.nan =>
          Except.ok
            ([("No optimal time delay is found. Nan is returned. Consider using a higher delay max.")],
              DelayResult.nanOnly)
        | SelectOut.idx i =>
          if i < taus.length then
            Except.ok ([], DelayResult.success (taus.getD i 0)
              ⟨taus, (signal_autocor sig).take taus.length, ("first zero crossing"),
                ("Autocorrelation"), ("casdagli1991")⟩)
          else Except.error NKErr.indexError) := rfl
  rw [e]
  cases hz : signal_zerocrossings ((signal_autocor sig).take taus.length) with
  | nil => rfl
  | cons i rest =>
    have hi : i < taus.length := by
      have hmem : i ∈ signal_zerocrossings ((signal_autocor sig).take taus.length) := by
        rw [hz]; exact List.mem_cons_self i rest
      have h1 := mem_signal_zerocrossings_lt _ _ hmem
      have h2 : ((signal_autocor sig).take taus.length).length ≤ taus.length := by
        rw [List.length_take]; omega
      omega
    show exceptIsOk (if i < taus.length then _ else _) = true
    rw [if_pos hi]
    rfl

/-- Claim C3, witness for the amended theorem. -/
theorem c3_no_boundary_validation_witness :
    (∃ t ∈ ([0, 2] : List ℤ), t ≤ 0) ∧
      exceptIsOk
        (complexity_delay E0 [1, -1, 1, -1] (Sum.inr [0, 2]) ("casdagli1991") none
          ⟨none, none⟩) = true :=
  ⟨by decide, c3_no_boundary_validation E0 [1, -1, 1, -1] [0, 2] ⟨none, none⟩ (by decide)⟩

/-- Claim C4, counterexample.  For the casdagli1991 method on a signal of
length 3 with 5 candidate delays the returned score sequence has length 3,
not 5: the autocorrelation branch truncates the ACF instead of padding, so
a signal shorter than the candidate count yields a short score sequence. -/
theorem c4_counterexample :
    complexity_delay E0 [1, -1, 1] (Sum.inl 5) ("casdagli1991") none ⟨none, none⟩ =
      Except.ok ([], DelayResult.success 1
        ⟨[1, 2, 3, 4, 5], [1, -2/3, 1/3], ("first zero crossing"), ("Autocorrelation"),
          ("casdagli1991")⟩) ∧
    ([1, -2/3, 1/3] : List ℚ).length ≠ (tauSequence (Sum.inl 5)).length := by
  with_unfolding_all decide

/-- Claim C4, amended.  In every successful result package the score
sequence has length equal to the candidate count for the Mutual Information,
Displacement and Correlation Integral methods, but equal to the minimum of
the signal length and the candidate count for the Autocorrelation-metric
methods (theiler1990 / casdagli1991), which is smaller whenever the signal
is shorter than the candidate sequence. -/
theorem c4_scores_length (E : Ext) (sig : List ℚ) (dm : ℕ ⊕ List ℤ) (method : String)
    (algorithm : Option String) (kw : KW) (w : List String) (d : ℤ) (info : InfoBundle)
    (h : complexity_delay E sig dm method algorithm kw =
      Except.ok (w, DelayResult.success d info)) :
    info.Scores.length =
      if toLowerStr method ∈ [("theiler"), ("theiler1990"), ("casdagli"), ("casdagli1991")] then
        min sig.length (tauSequence dm).length
      else (tauSequence dm).length := by
  obtain ⟨md, hd, hscores⟩ := complexity_delay_success E sig dm method algorithm kw w d info h
  rw [hscores, metric_length]
  by_cases hm : toLowerStr method ∈ [("theiler"), ("theiler1990"), ("casdagli"), ("casdagli1991")]
  · rw [if_pos hm, if_pos ((methodDispatch_autocor _ _ hd).mpr hm)]
  · rw [if_neg hm, if_neg fun hc => hm ((methodDispatch_autocor _ _ hd).mp hc)]

/-- Claim C4, witness for the amended theorem. -/
theorem c4_scores_length_witness :
    (InfoBundle.mk [1, 2] [1, -3/4] ("first zero crossing") ("Autocorrelation")
        ("casdagli1991")).Scores.length =
      if toLowerStr ("casdagli1991") ∈
          [("theiler"), ("theiler1990"), ("casdagli"), ("casdagli1991")] then
        min ([1, -1, 1, -1] : List ℚ).length (tauSequence (Sum.inr [1, 2])).length
      else (tauSequence (Sum.inr [1, 2])).length :=
  c4_scores_length E0 [1, -1, 1, -1] (Sum.inr [1, 2]) ("casdagli1991") none ⟨none, none⟩ [] 1
    (InfoBundle.mk [1, 2] [1, -3/4] ("first zero crossing") ("Autocorrelation") ("casdagli1991"))
    (by with_unfolding_all decide)

/-- Claim C5.  When the embedding has M >= 2 points, the correlation
integral equals 2/(M(M-1)) times the number of unique unordered pairs of
embedded points whose Chebyshev distance is at most r, ties at exactly r
counted as inside (the Heaviside step at 0 is 1). -/
theorem c5_integral_pair_count (signal : List ℚ) (dimension delay : ℕ) (r : ℚ)
    (h : 2 ≤ (complexity_embedding signal delay dimension).length) :
    _embedding_delay_cc_integral signal dimension delay r =
      2 / (((complexity_embedding signal delay dimension).length : ℚ) *
            (((complexity_embedding signal delay dimension).length : ℚ) - 1)) *
        (((combinations2 (complexity_embedding signal delay dimension).length).countP fun p =>
            decide
              (chebDist ((complexity_embedding signal delay dimension).getD p.1 [])
                ((complexity_embedding signal delay dimension).getD p.2 []) ≤ r) : ℕ) : ℚ) ∧
      heaviside 0 1 = 1 := by
  constructor
  · unfold _embedding_delay_cc_integral
    congr 1
    simp only [heaviside_step_le]
    rw [sum_map_ite_countP]
  · norm_num [heaviside]

/-- Claim C5, witness. -/
theorem c5_integral_pair_count_witness :
    2 ≤ (complexity_embedding [0, 1, 2] 1 1).length ∧
      (_embedding_delay_cc_integral [0, 1, 2] 1 1 1 =
        2 / (((complexity_embedding [0, 1, 2] 1 1).length : ℚ) *
              (((complexity_embedding [0, 1, 2] 1 1).length : ℚ) - 1)) *
          (((combinations2 (complexity_embedding [0, 1, 2] 1 1).length).countP fun p =>
              decide
                (chebDist ((complexity_embedding [0, 1, 2] 1 1).getD p.1 [])
                  ((complexity_embedding [0, 1, 2] 1 1).getD p.2 []) ≤ 1) : ℕ) : ℚ) ∧
        heaviside 0 1 = 1) :=
  ⟨by with_unfolding_all decide,
    c5_integral_pair_count [0, 1, 2] 1 1 1 (by with_unfolding_all decide)⟩

/-- Claim C6.  For delay t >= 1 the C-C dependence statistic equals (1/t)
times the sum over the t phase offsets o of the integral of the sub-series
(every t-th sample starting at o) minus the dimension-th power of the
dimension-1 integral of the whole signal; and the sub-series taken are
exactly the t disjoint decimations of the signal (element k of offset o is
signal[o + k*t]). -/
theorem c6_statistic_formula (signal : List ℚ) (dimension delay : ℕ) (r : ℚ)
    (h : 1 ≤ delay) :
    _embedding_delay_cc_statistic signal dimension delay r =
      1 / (delay : ℚ) *
        ((List.range delay).map fun o =>
          _embedding_delay_cc_integral (sliceStep (signal.drop o) delay) dimension delay r -
            _embedding_delay_cc_integral signal 1 delay r ^ dimension).sum ∧
    ∀ o k, (sliceStep (signal.drop o) delay)[k]? = signal[o + k * delay]? := by
  constructor
  · unfold _embedding_delay_cc_statistic
    rw [foldl_add_sum, zero_add, one_div_mul_eq_div]
    congr 1
    rw [List.range'_eq_map_range, List.map_map, List.map_map]
    refine congrArg List.sum (List.map_congr_left fun x hx => ?_)
    simp [Function.comp, Nat.add_sub_cancel_left]
  · intro o k
    rw [sliceStep_getElem _ _ _ h, List.getElem?_drop]

/-- Claim C6, witness. -/
theorem c6_statistic_formula_witness :
    1 ≤ 1 ∧ (sliceStep (([0, 1] : List ℚ).drop 0) 1)[0]? = (([0, 1] : List ℚ))[0 + 0 * 1]? :=
  ⟨le_refl 1, (c6_statistic_formula [0, 1] 2 1 1 (le_refl 1)).2 0 0⟩

/-- Claim C7.  For a score sequence of length at least 2, the corrected
first-local-minimum selector returns index 0 when the first finite
difference is positive, returns the last index when every finite difference
is negative, and otherwise coincides with the plain thresholded peak search
on the negated sequence. -/
theorem c7_corrected_selector (fp zc c40 : List ℚ → List ℕ) (invE : ℚ) (mv : List ℚ)
    (h : 2 ≤ mv.length) :
    (0 < (npDiff mv).getD 0 0 →
      _embedding_delay_select fp zc c40 invE mv ("first local minimum (corrected)") =
        SelectOut.idx 0) ∧
    ((∀ d ∈ npDiff mv, d < 0) →
      _embedding_delay_select fp zc c40 invE mv ("first local minimum (corrected)") =
        SelectOut.idx (mv.length - 1)) ∧
    (¬ 0 < (npDiff mv).getD 0 0 → ¬ (∀ d ∈ npDiff mv, d < 0) →
      _embedding_delay_select fp zc c40 invE mv ("first local minimum (corrected)") =
        _embedding_delay_select fp zc c40 invE mv ("first local minimum")) := by
  obtain ⟨d0, ds, hdiff⟩ := npDiff_cons_of_two_le mv h
  refine ⟨?_, ?_, ?_⟩
  · intro h0
    rw [hdiff] at h0
    simp only [List.getD_cons_zero] at h0
    rw [select_corrected_cons fp zc c40 invE mv d0 ds hdiff, if_pos h0]
  · intro hall
    rw [hdiff] at hall
    have hd0 : d0 < 0 := hall d0 (List.mem_cons_self d0 ds)
    rw [select_corrected_cons fp zc c40 invE mv d0 ds hdiff, if_neg (by linarith),
      if_pos (List.all_eq_true.mpr fun d hd => decide_eq_true (hall d hd))]
  · intro h0 hall
    rw [hdiff] at h0 hall
    simp only [List.getD_cons_zero] at h0
    have hna : ¬ ((d0 :: ds).all fun d => decide (d < 0)) = true := by
      intro hc
      exact hall fun d hd => of_decide_eq_true (List.all_eq_true.mp hc d hd)
    rw [select_corrected_cons fp zc c40 invE mv d0 ds hdiff, if_neg h0, if_neg hna]
    rfl

/-- Claim C7, witness. -/
theorem c7_corrected_selector_witness :
    2 ≤ ([0, 1] : List ℚ).length ∧
      _embedding_delay_select fp0 zc0 c400 0 [0, 1] ("first local minimum (corrected)") =
        SelectOut.idx 0 :=
  ⟨by decide,
    (c7_corrected_selector fp0 zc0 c400 0 [0, 1] (by decide)).1 (by with_unfolding_all decide)⟩

/-- Claim C8.  For every algorithm whose branch consults an underlying
primitive (peak finder, zero-crossing finder, closest-value composite),
an empty index collection makes the Selector return the NaN sentinel
without raising, and a non-empty collection makes it return the first
(lowest-index) element; for the corrected variant this holds on its
fallback path. -/
theorem c8_selector_primitive_handling (fp zc c40 : List ℚ → List ℕ) (invE : ℚ)
    (mv : List ℚ) :
    (fp (mv.map fun x => -1 * x) = [] →
      _embedding_delay_select fp zc c40 invE mv ("first local minimum") = SelectOut.nan) ∧
    (∀ i rest, fp (mv.map fun x => -1 * x) = i :: rest →
      _embedding_delay_select fp zc c40 invE mv ("first local minimum") = SelectOut.idx i) ∧
    (zc (mv.map fun x => x - invE) = [] →
      _embedding_delay_select fp zc c40 invE mv ("first 1/e crossing") = SelectOut.nan) ∧
    (∀ i rest, zc (mv.map fun x => x - invE) = i :: rest →
      _embedding_delay_select fp zc c40 invE mv ("first 1/e crossing") = SelectOut.idx i) ∧
    (zc mv = [] →
      _embedding_delay_select fp zc c40 invE mv ("first zero crossing") = SelectOut.nan) ∧
    (∀ i rest, zc mv = i :: rest →
      _embedding_delay_select fp zc c40 invE mv ("first zero crossing") = SelectOut.idx i) ∧
    (c40 ((npDiff mv).map fun d => d * (mv.length : ℚ)) = [] →
      _embedding_delay_select fp zc c40 invE mv ("closest to 40% of the slope") =
        SelectOut.nan) ∧
    (∀ i rest, c40 ((npDiff mv).map fun d => d * (mv.length : ℚ)) = i :: rest →
      _embedding_delay_select fp zc c40 invE mv ("closest to 40% of the slope") =
        SelectOut.idx i) ∧
    (∀ d0 ds, npDiff mv = d0 :: ds → ¬ 0 < d0 →
      ¬ ((d0 :: ds).all fun d => decide (d < 0)) = true →
      (fp (mv.map fun x => -1 * x) = [] →
        _embedding_delay_select fp zc c40 invE mv ("first local minimum (corrected)") =
          SelectOut.nan) ∧
      (∀ i rest, fp (mv.map fun x => -1 * x) = i :: rest →
        _embedding_delay_select fp zc c40 invE mv ("first local minimum (corrected)") =
          SelectOut.idx i)) := by
  have e1 : _embedding_delay_select fp zc c40 invE mv ("first local minimum") =
      resolveOptimal (fp (mv.map fun x => -1 * x)) := rfl
  have e2 : _embedding_delay_select fp zc c40 invE mv ("first 1/e crossing") =
      resolveOptimal (zc (mv.map fun x => x - invE)) := rfl
  have e3 : _embedding_delay_select fp zc c40 invE mv ("first zero crossing") =
      resolveOptimal (zc mv) := rfl
  have e4 : _embedding_delay_select fp zc c40 invE mv ("closest to 40% of the slope") =
      resolveOptimal (c40 ((npDiff mv).map fun d => d * (mv.length : ℚ))) := rfl
  refine ⟨fun hp => by rw [e1, hp]; rfl, fun i rest hp => by rw [e1, hp]; rfl,
    fun hp => by rw [e2, hp]; rfl, fun i rest hp => by rw [e2, hp]; rfl,
    fun hp => by rw [e3, hp]; rfl, fun i rest hp => by rw [e3, hp]; rfl,
    fun hp => by rw [e4, hp]; rfl, fun i rest hp => by rw [e4, hp]; rfl,
    fun d0 ds hdiff h0 hna => ?_⟩
  have e5 := select_corrected_cons fp zc c40 invE mv d0 ds hdiff
  rw [if_neg h0, if_neg hna] at e5
  exact ⟨fun hp => by rw [e5, hp]; rfl, fun i rest hp => by rw [e5, hp]; rfl⟩

/-- Claim C8, witness. -/
theorem c8_selector_primitive_handling_witness :
    _embedding_delay_select fp0 zc0 c400 0 [1, 2] ("first zero crossing") = SelectOut.nan ∧
      _embedding_delay_select fpK zc0 c400 0 [1, 2] ("first local minimum") = SelectOut.idx 3 :=
  ⟨(c8_selector_primitive_handling fp0 zc0 c400 0 [1, 2]).2.2.2.2.1 rfl,
    (c8_selector_primitive_handling fpK zc0 c400 0 [1, 2]).2.1 3 [7] rfl⟩

/-- Claim C9.  The deviation (max minus min of the statistic across the
radius set) is non-negative for every non-empty radius set, and equals 0
whenever all radii in the set are equal. -/
theorem c9_deviation (signal : List ℚ) (delay dimension : ℕ) (r_vals : List ℚ) :
    (r_vals ≠ [] → 0 ≤ _embedding_delay_cc_deviation signal delay dimension r_vals) ∧
    ((∀ a ∈ r_vals, ∀ b ∈ r_vals, a = b) →
      _embedding_delay_cc_deviation signal delay dimension r_vals = 0) := by
  constructor
  · intro hne
    unfold _embedding_delay_cc_deviation
    cases hr : r_vals.map fun r => _embedding_delay_cc_statistic signal dimension delay r with
    | nil => exact le_refl 0
    | cons d ds =>
      have h1 := foldl_min_le d ds
      have h2 := le_foldl_max d ds
      show (0 : ℚ) ≤ ds.foldl max d - ds.foldl min d
      linarith
  · intro hall
    unfold _embedding_delay_cc_deviation
    cases hr : r_vals.map fun r => _embedding_delay_cc_statistic signal dimension delay r with
    | nil => rfl
    | cons d ds =>
      have hmem : ∀ x ∈ d :: ds, ∃ a ∈ r_vals,
          _embedding_delay_cc_statistic signal dimension delay a = x := by
        rw [← hr]
        exact fun x hx => List.mem_map.mp hx
      obtain ⟨a0, ha0, hfa0⟩ := hmem d (List.mem_cons_self d ds)
      have hds : ∀ x ∈ ds, x = d := by
        intro x hx
        obtain ⟨a, ha, hfa⟩ := hmem x (List.mem_cons_of_mem d hx)
        rw [← hfa, ← hfa0, hall a ha a0 ha0]
      show ds.foldl max d - ds.foldl min d = 0
      rw [foldl_max_all_eq d ds hds, foldl_min_all_eq d ds hds, sub_self]

/-- Claim C9, witness. -/
theorem c9_deviation_witness :
    0 ≤ _embedding_delay_cc_deviation [0, 1] 1 2 [1, 1] ∧
      _embedding_delay_cc_deviation [0, 1] 1 2 [1, 1] = 0 :=
  ⟨(c9_deviation [0, 1] 1 2 [1, 1]).1 (by decide),
    (c9_deviation [0, 1] 1 2 [1, 1]).2 (by with_unfolding_all decide)⟩

/-- Claim C10.  The corrected first-local-minimum selector indexes element 0
of the finite-difference sequence before anything else, so on score
sequences of length 0 or 1 it fails with the out-of-bounds error instead of
returning an index or the NaN sentinel; on length at least 2 it never
produces that error. -/
theorem c10_corrected_short_input (fp zc c40 : List ℚ → List ℕ) (invE : ℚ) (mv : List ℚ) :
    (mv.length ≤ 1 →
      _embedding_delay_select fp zc c40 invE mv ("first local minimum (corrected)") =
        SelectOut.indexError) ∧
    (2 ≤ mv.length →
      _embedding_delay_select fp zc c40 invE mv ("first local minimum (corrected)") ≠
        SelectOut.indexError) := by
  constructor
  · intro h
    have hnil : npDiff mv = [] := by
      have hl := npDiff_length mv
      cases hnp : npDiff mv with
      | nil => rfl
      | cons a t => rw [hnp] at hl; simp at hl; omega
    exact select_corrected_nil fp zc c40 invE mv hnil
  · intro h
    obtain ⟨d0, ds, hdiff⟩ := npDiff_cons_of_two_le mv h
    rw [select_corrected_cons fp zc c40 invE mv d0 ds hdiff]
    by_cases h1 : 0 < d0
    · rw [if_pos h1]; simp
    · rw [if_neg h1]
      by_cases h2 : ((d0 :: ds).all fun d => decide (d < 0)) = true
      · rw [if_pos h2]; simp
      · rw [if_neg h2]
        cases fp (mv.map fun x => -1 * x) <;> simp [resolveOptimal]

/-- Claim C10, witness. -/
theorem c10_corrected_short_input_witness :
    _embedding_delay_select fp0 zc0 c400 0 ([] : List ℚ) ("first local minimum (corrected)") =
        SelectOut.indexError ∧
      _embedding_delay_select fp0 zc0 c400 0 [0, 1] ("first local minimum (corrected)") ≠
        SelectOut.indexError :=
  ⟨(c10_corrected_short_input fp0 zc0 c400 0 []).1 (by decide),
    (c10_corrected_short_input fp0 zc0 c400 0 [0, 1]).2 (by decide)⟩

end NK
